import Mathlib

/-!
Shallow embedding of the decode pipeline of `src/V6.py` (ASK demodulation,
Manchester decoding, frame extraction, checksum validation, ASCII assembly),
together with theorems settling the specification claims about it.
-/

namespace V6

/-- Sampling frequency in Hz (global `Fe`, source line 10). -/
def Fe : Nat := 44100

/-- Symbol rate in bits per second (global `baud`, source line 11). -/
def baud : Nat := 200

/-- Samples per symbol: integer truncation of `Fe / baud` (global `Ns`, source line 12). -/
def Ns : Nat := Fe / baud

/-- ASK carrier frequency in Hz (global `Fp_ASK`, source line 13). -/
def Fp_ASK : Nat := 2000

/-- Value of a bit list read as a binary numeral, most significant bit first.
Models Python `int(s, 2)` applied to the digit string of the list. -/
def bitsToNat (bs : List Nat) : Nat := bs.foldl (fun a b => 2 * a + b) 0

/-- Binary digits of a positive number, least significant first, with fuel.
Helper for the binary rendering used by `format(n, 04b)`. -/
def binDigitsAux : Nat → Nat → List Nat
  | 0, _ => []
  | _, 0 => []
  | fuel + 1, n + 1 => ((n + 1) % 2) :: binDigitsAux fuel ((n + 1) / 2)

/-- Binary rendering of `n` without padding, most significant digit first. -/
def natToBinary (n : Nat) : List Nat :=
  if n = 0 then [0] else (binDigitsAux n n).reverse

/-- Binary rendering left padded with zeros to width four: models Python
`format(n, 04b)` as a digit list (wider than four only when `n` needs it). -/
def format04b (n : Nat) : List Nat :=
  List.replicate (4 - (natToBinary n).length) 0 ++ natToBinary n

/-- CRC divisor: `int("1001", 2) = 9` (source line 93). -/
def diviseur : Nat := 9

/-- One 12-bit block check (source lines 100-109): recompute the checksum of
the first eight bits, with four zero bits appended, reduced modulo the
divisor, rendered with `format(_, 04b)`, and compare with the last four
bits of the block. -/
def blockVerifies (bloc : List Nat) : Bool :=
  let data_8 := bloc.take 8
  let reste_4 := bloc.drop 8
  let data_dec := bitsToNat (data_8 ++ [0, 0, 0, 0])
  let reste_calc := data_dec % diviseur
  format04b reste_calc == reste_4

/-- The while loop of `crcreception` (source lines 97-111), with its number of
iterations supplied as fuel: each iteration consumes one 12-bit block,
collects its eight data bits and checks its checksum. -/
def crcLoop : Nat → List Nat → List Nat × Bool
  | 0, _ => ([], true)
  | k + 1, bits =>
      let bloc := bits.take 12
      let r := crcLoop k (bits.drop 12)
      (bloc.take 8 ++ r.1, (blockVerifies bloc && r.2))

/-- Checksum validation (source lines 85-112): the loop runs once per complete
12-bit block; the concatenated data bits are returned when every block
verifies, otherwise the whole message is rejected. -/
def crcreception (bits : List Nat) : Option (List Nat) :=
  let r := crcLoop (bits.length / 12) bits
  if r.2 then some r.1 else none

/-- Manchester decoding (source lines 42-56): pairs are read left to right,
(1,0) gives 1, (0,1) gives 0, any other pair is dropped, and a final
unpaired bit is discarded. -/
def Manchester_decode : List Nat → List Nat
  | b1 :: b2 :: rest =>
      if (b1, b2) = (1, 0) then 1 :: Manchester_decode rest
      else if (b1, b2) = (0, 1) then 0 :: Manchester_decode rest
      else Manchester_decode rest
  | _ => []

/-- Frame extraction (source lines 58-83): checks the length, the start flag
of eight ones and the end flag of eight zeros, requires at least eight
interior bits, and splits the interior into the protocol byte and the
payload plus checksum bits. -/
def trame_reception (bits : List Nat) : Option (List Nat × String) :=
  if bits.length < 16 then none
  else
    let fanion_debut := bits.take 8
    let fanion_fin := bits.drop (bits.length - 8)
    let core := (bits.drop 8).take (bits.length - 16)
    if fanion_debut ≠ List.replicate 8 1 ∨ fanion_fin ≠ List.replicate 8 0 then none
    else if core.length < 8 then none
    else some (core.drop 8, if core.take 8 = [1, 1, 0, 0, 0, 0, 1, 1] then "txt" else "?")

/-- The character loop of `ASCII_decode` (source lines 122-127), its number of
full eight-bit groups supplied as fuel. -/
def asciiLoop : Nat → List Nat → List Char
  | 0, _ => []
  | k + 1, bits => Char.ofNat (bitsToNat (bits.take 8)) :: asciiLoop k (bits.drop 8)

/-- ASCII decoding (source lines 114-128): a placeholder string for an
unrecognized protocol or empty input, otherwise one character per complete
eight-bit group. -/
def ASCII_decode (bits : List Nat) (type_fic : String) : String :=
  if type_fic ≠ "txt" ∨ bits = [] then "[Protocole inconnu ou bits vides]"
  else String.mk (asciiLoop (bits.length / 8) bits)

/-- Trapezoidal integration with unit spacing: models `np.trapz`
(source line 38). -/
noncomputable def trapz : List Real → Real
  | a :: rest@(b :: _) => (a + b) / 2 + trapz rest
  | _ => 0

/-- Pointwise product of the signal with the reference carrier
(source lines 30-33): carrier sample `i` is `sin(2 pi Fp_ASK (i / Fe_used))`,
with time measured from the start of the whole signal. -/
noncomputable def produitOf (signal : List Real) (Fe_used : Real) : List Real :=
  List.zipWith
    (fun i x => x * Real.sin (2 * Real.pi * (Fp_ASK : Real) * (i / Fe_used)))
    ((List.range signal.length).map fun i : Nat => (i : Real)) signal

/-- The demodulation loop (source lines 35-39): one hard bit decision per
window of `Ns` samples of the product signal, one for a strictly positive
trapezoidal integral, zero otherwise. -/
noncomputable def demodAux : List Real → List Nat
  | [] => []
  | l@(_ :: _) => (if 0 < trapz (l.take Ns) then 1 else 0) :: demodAux (l.drop Ns)
termination_by l => l.length
decreasing_by simp_all [List.length_drop, Ns, Fe, baud]; omega

/-- ASK demodulation (source lines 19-40). -/
noncomputable def demodulate_signal (signal : List Real) (Fe_used : Real) : List Nat :=
  demodAux (produitOf signal Fe_used)

/-- Spec side: consecutive complete chunks of a given size, their number
supplied as fuel. -/
def chunkLoop (sz : Nat) : Nat → List Nat → List (List Nat)
  | 0, _ => []
  | k + 1, bits => bits.take sz :: chunkLoop sz k (bits.drop sz)

/-- Spec side: the complete `sz`-bit chunks of a bit list, in order. -/
def completeChunks (sz : Nat) (bits : List Nat) : List (List Nat) :=
  chunkLoop sz (bits.length / sz) bits

/-- Spec side: a 12-bit block verifies when the 4-bit binary rendering of
(data unit read as an unsigned integer, times 16, modulo 9) equals the
received checksum bits. -/
def specBlockOk (bloc : List Nat) : Bool :=
  format04b (bitsToNat (bloc.take 8) * 16 % diviseur) == bloc.drop 8

/-- The eight data bits of the ASCII byte of the letter H (72). -/
def dataH : List Nat := [0, 1, 0, 0, 1, 0, 0, 0]

/-- The eight data bits of the ASCII byte of the letter I (73). -/
def dataI : List Nat := [0, 1, 0, 0, 1, 0, 0, 1]

/-- A valid 12-bit checksum block for one data byte: the data bits followed by
the 4-bit rendering of (data times 16 modulo 9). -/
def mkBlock (d : List Nat) : List Nat := d ++ format04b (bitsToNat d * 16 % diviseur)

/-- The end-to-end example frame: start flag, text protocol byte, the checksum
blocks of the bytes of the string HI, end flag. -/
def bitsHI : List Nat :=
  List.replicate 8 1 ++ [1, 1, 0, 0, 0, 0, 1, 1] ++ (mkBlock dataH ++ mkBlock dataI) ++
    List.replicate 8 0

/-! ### Arithmetic facts about `bitsToNat` and `format04b` -/

theorem foldlBits (bs : List Nat) (acc : Nat) :
    bs.foldl (fun a b => 2 * a + b) acc =
      acc * 2 ^ bs.length + bs.foldl (fun a b => 2 * a + b) 0 := by
  induction bs generalizing acc with
  | nil => simp
  | cons b t ih =>
      rw [List.foldl_cons, List.foldl_cons, ih, ih (2 * 0 + b), List.length_cons]
      ring

theorem bitsToNat_cons (b : Nat) (t : List Nat) :
    bitsToNat (b :: t) = b * 2 ^ t.length + bitsToNat t := by
  simp only [bitsToNat, List.foldl_cons]
  rw [foldlBits]
  ring_nf

theorem bitsToNat_append (l r : List Nat) :
    bitsToNat (l ++ r) = bitsToNat l * 2 ^ r.length + bitsToNat r := by
  simp only [bitsToNat, List.foldl_append]
  rw [foldlBits]

theorem bitsToNat_append_zeros (l : List Nat) :
    bitsToNat (l ++ [0, 0, 0, 0]) = bitsToNat l * 16 := by
  rw [bitsToNat_append, show bitsToNat [0, 0, 0, 0] = 0 from rfl]
  norm_num

theorem bitsToNat_lt (l : List Nat) (hb : ∀ b ∈ l, b ≤ 1) :
    bitsToNat l < 2 ^ l.length := by
  induction l with
  | nil => simp [bitsToNat]
  | cons b t ih =>
      rw [bitsToNat_cons, List.length_cons, pow_succ]
      have hbt : b ≤ 1 := hb b (List.mem_cons_self b t)
      have iht := ih fun x hx => hb x (List.mem_cons_of_mem b hx)
      interval_cases b <;> omega

theorem blockVerifies_eq_specBlockOk (bloc : List Nat) :
    blockVerifies bloc = specBlockOk bloc := by
  simp only [blockVerifies, specBlockOk, bitsToNat_append_zeros]

theorem format04b_inj : ∀ a, a < 9 → ∀ b, b < 9 → format04b a = format04b b → a = b := by
  decide

theorem format04b_length_of_lt : ∀ a, a < 9 → (format04b a).length = 4 := by decide

theorem bitsToNat_format04b : ∀ a, a < 9 → bitsToNat (format04b a) = a := by decide

theorem blockVerifies_append (l r : List Nat) (h : l.length = 8) :
    blockVerifies (l ++ r) = (format04b (bitsToNat l * 16 % diviseur) == r) := by
  simp only [blockVerifies, List.take_left' h, List.drop_left' h, bitsToNat_append_zeros]

/-! ### The checksum loop versus the complete 12-bit chunks -/

theorem crcLoop_fst (k : Nat) (bits : List Nat) :
    (crcLoop k bits).1 = (chunkLoop 12 k bits).flatMap (fun bl => bl.take 8) := by
  induction k generalizing bits with
  | zero => rfl
  | succ k ih => simp [crcLoop, chunkLoop, ih]

theorem crcLoop_snd (k : Nat) (bits : List Nat) :
    (crcLoop k bits).2 = (chunkLoop 12 k bits).all specBlockOk := by
  induction k generalizing bits with
  | zero => rfl
  | succ k ih => simp [crcLoop, chunkLoop, List.all_cons, blockVerifies_eq_specBlockOk, ih]

theorem crcLoop_fst_length (k : Nat) (bits : List Nat) (h : 12 * k ≤ bits.length) :
    (crcLoop k bits).1.length = 8 * k := by
  induction k generalizing bits with
  | zero => rfl
  | succ k ih =>
      have h12 : 12 ≤ bits.length := by omega
      have ihd := ih (bits.drop 12) (by simp [List.length_drop]; omega)
      simp only [crcLoop, List.length_append, List.length_take, ihd]
      omega

/-- C1: on every bit sequence, the checksum validator returns the
concatenation of the 8-bit data units of the complete 12-bit blocks exactly
when every complete block verifies under the mod-9 recomputation, and
returns no partial data (none) when any block mismatches. -/
theorem crcreception_spec (bits : List Nat) (_hb : ∀ b ∈ bits, b ≤ 1) :
    crcreception bits =
      if (completeChunks 12 bits).all specBlockOk
      then some ((completeChunks 12 bits).flatMap (fun bl => bl.take 8))
      else none := by
  show (if (crcLoop (bits.length / 12) bits).2 then some (crcLoop (bits.length / 12) bits).1
      else none) = _
  rw [crcLoop_fst, crcLoop_snd]
  rfl

/-- C1 witness: the theorem applied to a concrete bit sequence with one valid
block and two trailing bits. -/
theorem crcreception_spec_witness :
    crcreception ([0, 1, 0, 0, 1, 0, 0, 0] ++ [0, 0, 0, 0] ++ [1, 1]) =
      if (completeChunks 12 ([0, 1, 0, 0, 1, 0, 0, 0] ++ [0, 0, 0, 0] ++ [1, 1])).all specBlockOk
      then some ((completeChunks 12
          ([0, 1, 0, 0, 1, 0, 0, 0] ++ [0, 0, 0, 0] ++ [1, 1])).flatMap (fun bl => bl.take 8))
      else none :=
  crcreception_spec ([0, 1, 0, 0, 1, 0, 0, 0] ++ [0, 0, 0, 0] ++ [1, 1]) (by decide)

theorem asciiLoop_length (k : Nat) (bits : List Nat) : (asciiLoop k bits).length = k := by
  induction k generalizing bits with
  | zero => rfl
  | succ k ih => simp [asciiLoop, ih]

/-- C9: whenever checksum validation succeeds, the returned data has exactly
8 * (inputLength / 12) bits, a multiple of 8, so the character assembler
applied to it produces one character per 8-bit group with no trailing group
dropped. -/
theorem crcreception_length (bits data : List Nat) (h : crcreception bits = some data) :
    data.length = 8 * (bits.length / 12) ∧ data.length % 8 = 0 ∧
      (data ≠ [] → (ASCII_decode data "txt").length = data.length / 8) := by
  have hdata : data = (crcLoop (bits.length / 12) bits).1 := by
    simp only [crcreception] at h
    split at h
    · exact (Option.some.injEq _ _ ▸ h).symm
    · exact absurd h (by simp)
  have hlen : data.length = 8 * (bits.length / 12) := by
    rw [hdata]
    exact crcLoop_fst_length _ _ (by have := Nat.div_mul_le_self bits.length 12; omega)
  refine ⟨hlen, by omega, fun hne => ?_⟩
  have hcond : ¬("txt" ≠ "txt" ∨ data = []) := by
    simp only [ne_eq, not_or, not_not]
    exact ⟨trivial, hne⟩
  unfold ASCII_decode
  rw [if_neg hcond, String.length_mk, asciiLoop_length]

/-- C9 witness: the theorem applied to a single valid block. -/
theorem crcreception_length_witness :
    ([0, 1, 0, 0, 1, 0, 0, 0] : List Nat).length =
        8 * (([0, 1, 0, 0, 1, 0, 0, 0, 0, 0, 0, 0] : List Nat).length / 12) ∧
      ([0, 1, 0, 0, 1, 0, 0, 0] : List Nat).length % 8 = 0 ∧
      (([0, 1, 0, 0, 1, 0, 0, 0] : List Nat) ≠ [] →
        (ASCII_decode [0, 1, 0, 0, 1, 0, 0, 0] "txt").length =
          ([0, 1, 0, 0, 1, 0, 0, 0] : List Nat).length / 8) :=
  crcreception_length [0, 1, 0, 0, 1, 0, 0, 0, 0, 0, 0, 0] [0, 1, 0, 0, 1, 0, 0, 0] (by decide)

/-- C10: for every 8-bit data unit, the recomputed checksum value is at most
8, its 4-bit rendering has exactly four digits, and every block whose received
4-bit checksum reads as an integer of at least 9 fails verification. -/
theorem checksum_range (data : List Nat) (h8 : data.length = 8)
    (_hb : ∀ b ∈ data, b ≤ 1) :
    bitsToNat (data ++ [0, 0, 0, 0]) % diviseur ≤ 8 ∧
      (format04b (bitsToNat (data ++ [0, 0, 0, 0]) % diviseur)).length = 4 ∧
      ∀ r, r.length = 4 → 9 ≤ bitsToNat r → blockVerifies (data ++ r) = false := by
  have hlt : bitsToNat (data ++ [0, 0, 0, 0]) % diviseur < 9 :=
    Nat.mod_lt _ (by norm_num [diviseur])
  refine ⟨by omega, format04b_length_of_lt _ hlt, fun r _hr4 hr9 => ?_⟩
  rw [blockVerifies_append data r h8, beq_eq_false_iff_ne]
  intro heq
  have hv : bitsToNat data * 16 % diviseur < 9 := Nat.mod_lt _ (by norm_num [diviseur])
  have := bitsToNat_format04b _ hv
  rw [heq] at this
  omega

/-- C10 witness: the theorem applied to the all-ones data unit and the
received checksum 1001 (value nine). -/
theorem checksum_range_witness :
    bitsToNat ([1, 1, 1, 1, 1, 1, 1, 1] ++ [0, 0, 0, 0]) % diviseur ≤ 8 ∧
      (format04b (bitsToNat ([1, 1, 1, 1, 1, 1, 1, 1] ++ [0, 0, 0, 0]) % diviseur)).length = 4 ∧
      blockVerifies ([1, 1, 1, 1, 1, 1, 1, 1] ++ [1, 0, 0, 1]) = false :=
  ⟨(checksum_range [1, 1, 1, 1, 1, 1, 1, 1] (by decide) (by decide)).1,
   (checksum_range [1, 1, 1, 1, 1, 1, 1, 1] (by decide) (by decide)).2.1,
   (checksum_range [1, 1, 1, 1, 1, 1, 1, 1] (by decide) (by decide)).2.2
     [1, 0, 0, 1] (by decide) (by decide)⟩

/-! ### Single bit flips in the data unit -/

theorem bitsToNat_set (l : List Nat) (j v : Nat) (hj : j < l.length) :
    bitsToNat (l.set j v) + l.getD j 0 * 2 ^ (l.length - 1 - j) =
      bitsToNat l + v * 2 ^ (l.length - 1 - j) := by
  induction l generalizing j with
  | nil => simp at hj
  | cons a t ih =>
      cases j with
      | zero =>
          simp only [List.set_cons_zero, List.getD_cons_zero, bitsToNat_cons,
            List.length_cons, Nat.add_sub_cancel, Nat.sub_zero]
          ring
      | succ j =>
          have hjt : j < t.length := by simpa using hj
          have iht := ih j hjt
          simp only [List.set_cons_succ, List.getD_cons_succ, bitsToNat_cons,
            List.length_set, List.length_cons, Nat.succ_sub_succ, Nat.sub_zero]
          have hexp : t.length - (j + 1) = t.length - 1 - j := by omega
          rw [hexp]
          omega

set_option maxRecDepth 4000 in
theorem flip_mod_ne : ∀ X, X < 256 → ∀ e, e < 8 → (X + 2 ^ e) * 16 % 9 ≠ X * 16 % 9 := by
  decide

/-- C2: for a 12-bit block that verifies, flipping any single bit of its 8-bit
data unit while keeping the received 4-bit checksum fixed yields a block that
fails verification, for every bit position. -/
theorem single_bit_flip_detected (data r : List Nat) (j : Nat)
    (h8 : data.length = 8) (_h4 : r.length = 4) (hb : ∀ b ∈ data, b ≤ 1)
    (hj : j < 8) (hok : blockVerifies (data ++ r) = true) :
    blockVerifies (data.set j (1 - data.getD j 0) ++ r) = false := by
  have hjlen : j < data.length := by omega
  have hD : bitsToNat data < 256 := by
    have := bitsToNat_lt data hb
    rw [h8] at this
    norm_num at this
    exact this
  have hd1 : data.getD j 0 ≤ 1 := by
    rw [List.getD_eq_getElem data 0 hjlen]
    exact hb _ (List.getElem_mem hjlen)
  have hexp : (8 : Nat) - 1 - j = 7 - j := by omega
  rw [blockVerifies_append data r h8, beq_iff_eq] at hok
  have hmodD : bitsToNat data * 16 % diviseur < 9 := Nat.mod_lt _ (by norm_num [diviseur])
  rcases Nat.le_one_iff_eq_zero_or_eq_one.1 hd1 with hd | hd
  · rw [hd]
    simp only [Nat.sub_zero]
    have hset := bitsToNat_set data j 1 hjlen
    rw [h8, hexp, hd] at hset
    have hval : bitsToNat (data.set j 1) = bitsToNat data + 2 ^ (7 - j) := by omega
    rw [blockVerifies_append _ r (by rw [List.length_set]; exact h8), beq_eq_false_iff_ne]
    intro heq
    rw [← hok] at heq
    have hmodD' : bitsToNat (data.set j 1) * 16 % diviseur < 9 :=
      Nat.mod_lt _ (by norm_num [diviseur])
    have heqmod := format04b_inj _ hmodD' _ hmodD heq
    simp only [diviseur] at heqmod
    rw [hval] at heqmod
    exact flip_mod_ne (bitsToNat data) hD (7 - j) (by omega) heqmod
  · rw [hd]
    simp only [Nat.sub_self]
    have hset := bitsToNat_set data j 0 hjlen
    rw [h8, hexp, hd] at hset
    have hval : bitsToNat (data.set j 0) + 2 ^ (7 - j) = bitsToNat data := by omega
    rw [blockVerifies_append _ r (by rw [List.length_set]; exact h8), beq_eq_false_iff_ne]
    intro heq
    rw [← hok] at heq
    have hmodD' : bitsToNat (data.set j 0) * 16 % diviseur < 9 :=
      Nat.mod_lt _ (by norm_num [diviseur])
    have heqmod := format04b_inj _ hmodD' _ hmodD heq
    simp only [diviseur] at heqmod
    have hD' : bitsToNat (data.set j 0) < 256 := by omega
    have hne := flip_mod_ne (bitsToNat (data.set j 0)) hD' (7 - j) (by omega)
    rw [hval] at hne
    exact hne heqmod.symm

/-- C2 witness: the valid block for the byte 72 with its first data bit
flipped fails verification. -/
theorem single_bit_flip_detected_witness :
    blockVerifies
        (([0, 1, 0, 0, 1, 0, 0, 0] : List Nat).set 0
            (1 - ([0, 1, 0, 0, 1, 0, 0, 0] : List Nat).getD 0 0) ++ [0, 0, 0, 0]) = false :=
  single_bit_flip_detected [0, 1, 0, 0, 1, 0, 0, 0] [0, 0, 0, 0] 0 (by decide) (by decide)
    (by decide) (by decide) (by decide)

/-! ### Manchester decoding -/

theorem Manchester_decode_pair_step (b1 b2 : Nat) (rest : List Nat) :
    Manchester_decode (b1 :: b2 :: rest) =
      (if (b1, b2) = (1, 0) then [1] else if (b1, b2) = (0, 1) then [0] else []) ++
        Manchester_decode rest := by
  simp only [Manchester_decode]
  split_ifs <;> simp

theorem Manchester_decode_cons10 (xs : List Nat) :
    Manchester_decode (1 :: 0 :: xs) = 1 :: Manchester_decode xs := by
  simp [Manchester_decode]

theorem Manchester_decode_cons01 (xs : List Nat) :
    Manchester_decode (0 :: 1 :: xs) = 0 :: Manchester_decode xs := by
  simp [Manchester_decode]

theorem Manchester_decode_good_pairs (pairs : List (Nat × Nat))
    (h : ∀ p ∈ pairs, p = (1, 0) ∨ p = (0, 1)) :
    Manchester_decode (pairs.flatMap fun p => [p.1, p.2]) =
      pairs.map fun p => if p = (1, 0) then 1 else 0 := by
  induction pairs with
  | nil => rfl
  | cons p t ih =>
      have hp := h p (List.mem_cons_self p t)
      have ht := ih fun q hq => h q (List.mem_cons_of_mem p hq)
      rcases hp with hp | hp <;> subst hp
      · show Manchester_decode (1 :: 0 :: t.flatMap fun p => [p.1, p.2]) = _
        rw [Manchester_decode_cons10, ht]
        simp
      · show Manchester_decode (0 :: 1 :: t.flatMap fun p => [p.1, p.2]) = _
        rw [Manchester_decode_cons01, ht]
        simp

theorem Manchester_decode_le_half (bits : List Nat) :
    (Manchester_decode bits).length ≤ bits.length / 2 := by
  induction bits using Manchester_decode.induct with
  | case1 b1 b2 rest h ih =>
      simp only [Manchester_decode, if_pos h, List.length_cons]
      omega
  | case2 b1 b2 rest h1 h2 ih =>
      simp only [Manchester_decode, if_neg h1, if_pos h2, List.length_cons]
      omega
  | case3 b1 b2 rest h1 h2 ih =>
      simp only [Manchester_decode, if_neg h1, if_neg h2, List.length_cons]
      omega
  | case4 x h =>
      match x, h with
      | [], _ => simp [Manchester_decode]
      | [b], _ => simp [Manchester_decode]
      | b1 :: b2 :: rest, h => exact (h b1 b2 rest rfl).elim

/-- C3: Manchester decoding processes non overlapping pairs left to right,
maps (1,0) to 1 and (0,1) to 0, emits nothing for any other pair, discards a
final unpaired bit, and never fails; on an even length input made only of the
two good pairs the output is one mapped bit per pair in order, and in general
the output length is at most half the input length. -/
theorem manchester_spec :
    (∀ (b1 b2 : Nat) (rest : List Nat),
        Manchester_decode (b1 :: b2 :: rest) =
          (if (b1, b2) = (1, 0) then [1] else if (b1, b2) = (0, 1) then [0] else []) ++
            Manchester_decode rest)
    ∧ (∀ b : Nat, Manchester_decode [b] = []) ∧ Manchester_decode [] = []
    ∧ (∀ pairs : List (Nat × Nat), (∀ p ∈ pairs, p = (1, 0) ∨ p = (0, 1)) →
        Manchester_decode (pairs.flatMap fun p => [p.1, p.2]) =
          pairs.map fun p => if p = (1, 0) then 1 else 0)
    ∧ ∀ bits : List Nat, (Manchester_decode bits).length ≤ bits.length / 2 :=
  ⟨Manchester_decode_pair_step, fun _ => rfl, rfl, Manchester_decode_good_pairs,
    Manchester_decode_le_half⟩

/-- C3 witness: the good pairs part of the theorem applied to the concrete
pair list [(1,0), (0,1)]. -/
theorem manchester_spec_witness :
    Manchester_decode ([((1 : Nat), (0 : Nat)), (0, 1)].flatMap fun p => [p.1, p.2]) =
      [((1 : Nat), (0 : Nat)), (0, 1)].map fun p => if p = (1, 0) then 1 else 0 :=
  manchester_spec.2.2.2.1 [(1, 0), (0, 1)] (by decide)

/-! ### Frame extraction -/

theorem trame_core_length (bits : List Nat) (h16 : 16 ≤ bits.length) :
    ((bits.drop 8).take (bits.length - 16)).length = bits.length - 16 := by
  simp only [List.length_take, List.length_drop]
  omega

theorem trame_reception_eq (bits : List Nat) :
    trame_reception bits =
      if bits.length < 16 then none
      else if bits.take 8 ≠ List.replicate 8 1 ∨
          bits.drop (bits.length - 8) ≠ List.replicate 8 0 then none
      else if ((bits.drop 8).take (bits.length - 16)).length < 8 then none
      else some (((bits.drop 8).take (bits.length - 16)).drop 8,
        if ((bits.drop 8).take (bits.length - 16)).take 8 = [1, 1, 0, 0, 0, 0, 1, 1]
        then "txt" else "?") := rfl

/-- C6 (amended): frame extraction returns none on every sequence shorter
than 24 bits, including sequences of length 16 to 23 with valid flags; it
returns none whenever the first eight bits are not all ones or the last eight
bits are not all zeros; and on every sequence of length at least 24 with
valid flags it succeeds, returning the interior after its first eight bits
together with the protocol kind, txt exactly for the identifier 11000011 and
the unknown marker otherwise. -/
theorem trame_reception_spec :
    (∀ bits : List Nat, bits.length < 24 → trame_reception bits = none)
    ∧ (∀ bits : List Nat,
        bits.take 8 ≠ List.replicate 8 1 ∨ bits.drop (bits.length - 8) ≠ List.replicate 8 0 →
        trame_reception bits = none)
    ∧ ∀ bits : List Nat, 24 ≤ bits.length → bits.take 8 = List.replicate 8 1 →
        bits.drop (bits.length - 8) = List.replicate 8 0 →
        trame_reception bits =
          some (((bits.drop 8).take (bits.length - 16)).drop 8,
            if ((bits.drop 8).take (bits.length - 16)).take 8 = [1, 1, 0, 0, 0, 0, 1, 1]
            then "txt" else "?") := by
  refine ⟨fun bits hlt => ?_, fun bits hne => ?_, fun bits h24 hstart hend => ?_⟩
  · rw [trame_reception_eq]
    split_ifs with h1 h2 h3
    · rfl
    · rfl
    · rfl
    · exfalso
      have := trame_core_length bits (by omega)
      omega
  · rw [trame_reception_eq]
    split_ifs with h1 <;> rfl
  · rw [trame_reception_eq, if_neg (by omega),
      if_neg (by push_neg; exact ⟨hstart, hend⟩),
      if_neg (by rw [trame_core_length bits (by omega)]; omega)]

/-- C6 counterexample: the 16-bit sequence made of a valid start flag
directly followed by a valid end flag meets the length and flag conditions of
the claim, yet frame extraction reports a failure. -/
theorem trame_reception_min_length_counterexample :
    (List.replicate 8 1 ++ List.replicate 8 (0 : Nat)).length = 16 ∧
      (List.replicate 8 1 ++ List.replicate 8 (0 : Nat)).take 8 = List.replicate 8 1 ∧
      (List.replicate 8 1 ++ List.replicate 8 (0 : Nat)).drop
          ((List.replicate 8 1 ++ List.replicate 8 (0 : Nat)).length - 8) =
        List.replicate 8 0 ∧
      trame_reception (List.replicate 8 1 ++ List.replicate 8 (0 : Nat)) = none := by
  decide

/-- C6 witness: the success part of the amended theorem applied to a concrete
24-bit frame with an empty payload. -/
theorem trame_reception_spec_witness :
    trame_reception (List.replicate 8 1 ++ [1, 1, 0, 0, 0, 0, 1, 1] ++ List.replicate 8 0) =
      some ((((List.replicate 8 1 ++ [1, 1, 0, 0, 0, 0, 1, 1] ++ List.replicate 8 0).drop 8).take
            ((List.replicate 8 1 ++ [1, 1, 0, 0, 0, 0, 1, 1] ++
              List.replicate 8 0).length - 16)).drop 8,
        if (((List.replicate 8 1 ++ [1, 1, 0, 0, 0, 0, 1, 1] ++ List.replicate 8 0).drop 8).take
              ((List.replicate 8 1 ++ [1, 1, 0, 0, 0, 0, 1, 1] ++
                List.replicate 8 0).length - 16)).take 8 = [1, 1, 0, 0, 0, 0, 1, 1]
        then "txt" else "?") :=
  trame_reception_spec.2.2 (List.replicate 8 1 ++ [1, 1, 0, 0, 0, 0, 1, 1] ++ List.replicate 8 0)
    (by decide) (by decide) (by decide)

/-! ### ASCII assembly -/

theorem asciiLoop_chunks (k : Nat) (bits : List Nat) :
    asciiLoop k bits = (chunkLoop 8 k bits).map fun g => Char.ofNat (bitsToNat g) := by
  induction k generalizing bits with
  | zero => rfl
  | succ k ih => simp [asciiLoop, chunkLoop, ih]

/-- C7: the character assembler returns the fixed placeholder string when the
protocol kind is not txt or the bit list is empty; otherwise its output
characters are, in order, the codepoints of the complete eight-bit groups of
the input, any shorter trailing group being dropped. -/
theorem ascii_decode_spec :
    (∀ (bits : List Nat) (kind : String), kind ≠ "txt" ∨ bits = [] →
        ASCII_decode bits kind = "[Protocole inconnu ou bits vides]")
    ∧ ∀ bits : List Nat, bits ≠ [] →
        (ASCII_decode bits "txt").data =
          (completeChunks 8 bits).map fun g => Char.ofNat (bitsToNat g) := by
  constructor
  · intro bits kind h
    unfold ASCII_decode
    rw [if_pos h]
  · intro bits hne
    unfold ASCII_decode
    rw [if_neg (by simp only [ne_eq, not_or, not_not]; exact ⟨trivial, hne⟩)]
    show (String.mk (asciiLoop (bits.length / 8) bits)).data = _
    rw [asciiLoop_chunks]
    rfl

/-- C7 witness: the theorem applied to an unknown protocol kind and to the
concrete validated bits of the string HI. -/
theorem ascii_decode_spec_witness :
    ASCII_decode [1] "?" = "[Protocole inconnu ou bits vides]" ∧
      (ASCII_decode (dataH ++ dataI) "txt").data =
        (completeChunks 8 (dataH ++ dataI)).map (fun g => Char.ofNat (bitsToNat g)) :=
  ⟨ascii_decode_spec.1 [1] "?" (Or.inl (by decide)),
   ascii_decode_spec.2 (dataH ++ dataI) (by decide)⟩

/-- C8: on the frame made of the start flag, the text protocol byte, the two
valid checksum blocks of the bytes of H and I, and the end flag, the three
stages succeed in sequence and produce the string HI. -/
theorem end_to_end_HI :
    trame_reception bitsHI = some (mkBlock dataH ++ mkBlock dataI, "txt") ∧
      crcreception (mkBlock dataH ++ mkBlock dataI) = some (dataH ++ dataI) ∧
      ASCII_decode (dataH ++ dataI) "txt" = "HI" := by
  decide

/-! ### Demodulation -/

theorem demodAux_nil : demodAux [] = [] := by rw [demodAux]

theorem demodAux_cons (a : Real) (t : List Real) :
    demodAux (a :: t) =
      (if 0 < trapz ((a :: t).take Ns) then 1 else 0) :: demodAux ((a :: t).drop Ns) := by
  rw [demodAux]

theorem demodAux_length (l : List Real) :
    (demodAux l).length = (l.length + (Ns - 1)) / Ns := by
  induction l using demodAux.induct with
  | case1 => rw [demodAux_nil]; rfl
  | case2 a t ih =>
      rw [demodAux_cons, List.length_cons, ih]
      simp only [List.length_drop, List.length_cons]
      rw [show Ns = 220 from rfl]
      omega

theorem produitOf_length (signal : List Real) (f : Real) :
    (produitOf signal f).length = signal.length := by
  unfold produitOf
  rw [List.length_zipWith, List.length_map, List.length_range, Nat.min_self]

theorem trapz_nil : trapz [] = 0 := by simp [trapz]

theorem trapz_single (a : Real) : trapz [a] = 0 := by simp [trapz]

theorem demodAux_getD : ∀ (k : Nat) (l : List Real), k < (demodAux l).length →
    (demodAux l).getD k 0 = if 0 < trapz ((l.drop (Ns * k)).take Ns) then 1 else 0 := by
  intro k
  induction k with
  | zero =>
      intro l hl
      match l with
      | [] => rw [demodAux_nil] at hl; simp at hl
      | a :: t =>
          rw [demodAux_cons]
          simp only [List.getD_cons_zero, Nat.mul_zero, List.drop_zero]
  | succ k ih =>
      intro l hl
      match l with
      | [] => rw [demodAux_nil] at hl; simp at hl
      | a :: t =>
          rw [demodAux_cons] at hl
          rw [demodAux_cons]
          simp only [List.getD_cons_succ]
          rw [ih _ (by simpa using hl), List.drop_drop, Nat.mul_succ,
            Nat.add_comm (Ns * k) Ns]

theorem trapz_replicate_zero : ∀ m : Nat, trapz (List.replicate m (0 : Real)) = 0 := by
  intro m
  induction m with
  | zero => exact trapz_nil
  | succ m ih =>
      cases m with
      | zero => exact trapz_single 0
      | succ s =>
          show trapz ((0 : Real) :: (0 : Real) :: List.replicate s 0) = 0
          rw [trapz, show ((0 : Real) :: List.replicate s (0 : Real)) =
            List.replicate (s + 1) (0 : Real) from (List.replicate_succ 0 s).symm, ih]
          norm_num

theorem produitOf_replicate_zero (n : Nat) (f : Real) :
    produitOf (List.replicate n (0 : Real)) f = List.replicate n 0 := by
  apply List.ext_getElem
  · rw [produitOf_length, List.length_replicate]
  · intro i h1 h2
    simp only [produitOf, List.getElem_zipWith, List.getElem_replicate, zero_mul]

theorem demodAux_replicate_zero :
    ∀ (n : Nat) (b : Nat), b ∈ demodAux (List.replicate n (0 : Real)) → b = 0 := by
  intro n
  induction n using Nat.strong_induction_on with
  | _ n ih =>
    match n with
    | 0 =>
        intro b hb
        rw [show List.replicate 0 (0 : Real) = [] from rfl, demodAux_nil] at hb
        simp at hb
    | m + 1 =>
        intro b hb
        rw [List.replicate_succ, demodAux_cons] at hb
        rcases List.mem_cons.1 hb with h | h
        · rw [show ((0 : Real) :: List.replicate m 0).take Ns =
              List.replicate (min Ns (m + 1)) 0 from by
                rw [← List.replicate_succ, List.take_replicate],
            trapz_replicate_zero] at h
          simpa using h
        · rw [show ((0 : Real) :: List.replicate m 0).drop Ns =
              List.replicate (m + 1 - Ns) 0 from by
                rw [← List.replicate_succ, List.drop_replicate]] at h
          exact ih (m + 1 - Ns)
            (by have : 0 < Ns := by norm_num [Ns, Fe, baud]
                omega) b h

/-- C4 (amended): the demodulator always produces ceil(sampleCount / Ns) bits
where Ns is the fixed global samples-per-symbol value floor(44100 / 200) =
220, independent of the sample rate passed in, and an empty signal produces
an empty bit sequence. -/
theorem demodulate_signal_length (signal : List Real) (Fe_used : Real) :
    (demodulate_signal signal Fe_used).length = (signal.length + (Ns - 1)) / Ns ∧
      demodulate_signal [] Fe_used = [] := by
  constructor
  · unfold demodulate_signal
    rw [demodAux_length, produitOf_length]
  · unfold demodulate_signal
    rw [show produitOf [] Fe_used = [] from by simp [produitOf], demodAux_nil]

/-- C4 counterexample: for a four sample signal at the passed sample rate 400,
the demodulator returns one bit, not ceil(4 / floor(400 / 200)) = 2 as the
claim computes from the passed rate. -/
theorem demodulate_length_counterexample :
    (demodulate_signal (List.replicate 4 (0 : Real)) 400).length = 1 ∧
      (demodulate_signal (List.replicate 4 (0 : Real)) 400).length ≠
        (4 + ((400 : Nat) / 200) - 1) / ((400 : Nat) / 200) := by
  have h : (demodulate_signal (List.replicate 4 (0 : Real)) 400).length = 1 := by
    unfold demodulate_signal
    rw [demodAux_length, produitOf_length]
    rfl
  exact ⟨h, by rw [h]; decide⟩

/-- C5: every demodulated bit is one exactly when the trapezoidal integral of
its window of the product of the signal with the reference carrier is
strictly positive and zero otherwise, and demodulating an all zero signal
yields only zero bits. -/
theorem demodulate_decision :
    (∀ (signal : List Real) (Fe_used : Real) (k : Nat),
        k < (demodulate_signal signal Fe_used).length →
        (demodulate_signal signal Fe_used).getD k 0 =
          if 0 < trapz (((produitOf signal Fe_used).drop (Ns * k)).take Ns) then 1 else 0)
    ∧ ∀ (n : Nat) (Fe_used : Real) (b : Nat),
        b ∈ demodulate_signal (List.replicate n 0) Fe_used → b = 0 := by
  constructor
  · intro s f k hk
    exact demodAux_getD k (produitOf s f) hk
  · intro n f b hb
    unfold demodulate_signal at hb
    rw [produitOf_replicate_zero] at hb
    exact demodAux_replicate_zero n b hb

/-- C5 witness: the decision rule applied to the first window of a three
sample silent signal at the nominal rate. -/
theorem demodulate_decision_witness :
    (demodulate_signal (List.replicate 3 (0 : Real)) 44100).getD 0 0 =
      if 0 < trapz (((produitOf (List.replicate 3 (0 : Real)) 44100).drop (Ns * 0)).take Ns)
      then 1 else 0 :=
  demodulate_decision.1 (List.replicate 3 0) 44100 0 (by
    have h1 : (demodulate_signal (List.replicate 3 (0 : Real)) 44100).length =
        ((List.replicate 3 (0 : Real)).length + (Ns - 1)) / Ns := by
      unfold demodulate_signal
      rw [demodAux_length, produitOf_length]
    rw [h1]
    decide)

end V6
